import Mathlib

/-!
Shallow embedding of the crop-calendar / monthly-sequence core of the
NBS_TP repository (src/functions/*.py), together with proofs settling the
frozen claims about it.

Conventions of the embedding:
* "YYYY-MM" date strings are modelled by the `YM` structure (year, month);
  the source's lexicographic comparison of those strings is modelled by the
  lexicographic order `ymLeb` on (year, month), which agrees with the string
  order for 4-digit years and zero-padded months.
* pandas Series of floats are modelled as `List ℚ`; Series that may contain
  NaN are modelled as `List (Option ℚ)` with `none` for NaN (so `x == y` on
  floats, false whenever one side is NaN, becomes equality on `Option ℚ`
  against a `some` value).
* Python `while` loops over a cursor index are modelled by structurally
  recursive functions with an explicit fuel argument; callers pass a fuel
  that dominates the number of iterations (the cursor strictly increases),
  so the fuel never runs out on the wrapper's own call.
* A Python function that can raise is modelled with an `Option` result,
  `none` for the raising run.
-/

namespace NBS

/-- A year-month date, the model of the source's "YYYY-MM" strings. -/
structure YM where
  year : ℕ
  month : ℕ
deriving DecidableEq, Repr, Inhabited

/-- Model of the source's lexicographic comparison of "YYYY-MM" strings
(`period_start <= current_date_str`): lexicographic on (year, month). -/
def ymLeb (a b : YM) : Bool :=
  Nat.blt a.year b.year || (a.year == b.year && Nat.ble a.month b.month)

/-- Linear month count `year * 12 + month`, the quantity the sources compute
as `current_year * 12 + current_month` and use for span and gap arithmetic. -/
def monthIndex (d : YM) : ℕ := d.year * 12 + d.month

/-- Month stepping used by the generation loops of
`crop_calendar_to_sequence` and `build_climate_sequence_from_calendar`:
`current_month += 1; if current_month > 12: current_month = 1; current_year += 1`. -/
def ymNext (d : YM) : YM :=
  if 12 < d.month + 1 then ⟨d.year + 1, 1⟩ else ⟨d.year, d.month + 1⟩

/-- Date of the i-th month after `d`, as computed in `create_crop_calendar`:
`year = start.year + (start.month + i - 1) // 12`,
`month = (start.month + i - 1) % 12 + 1`. -/
def ymAdd (d : YM) (i : ℕ) : YM :=
  ⟨d.year + (d.month + i - 1) / 12, (d.month + i - 1) % 12 + 1⟩

/-- Month-before computation of `duplicate_crop_calendar`'s gap closure:
`gap_end_month = next_month - 1; if gap_end_month == 0: month 12, year - 1`. -/
def ymPrev (d : YM) : YM :=
  if d.month - 1 = 0 then ⟨d.year - 1, 12⟩ else ⟨d.year, d.month - 1⟩

/-- A row of a crop-calendar DataFrame: columns Crop, Crop_Name, Start_Date,
End_Date, Rotation. -/
structure Period where
  crop : ℚ
  cropName : Option String := none
  startD : YM
  endD : YM
  rotation : String := ""
deriving DecidableEq, Repr, Inhabited

/-- A row of a climate DataFrame restricted to the selected variable column:
Year, Month and the value of that variable. -/
structure ClimateRow where
  year : ℕ
  month : ℕ
  value : ℚ
deriving DecidableEq, Repr, Inhabited

/-- Months of the span walked by the generation loops shared verbatim by
`crop_calendar_to_sequence` and `build_climate_sequence_from_calendar`:
`total_months = (end_year - start_year) * 12 + (end_month - start_month) + 1`
(Python int arithmetic, so an empty range when non-positive), then
`total_months` steps of `ymNext` starting from the start date. -/
def spanMonths (startD endD : YM) : List YM :=
  (List.range ((monthIndex endD : ℤ) - monthIndex startD + 1).toNat).map
    (fun t => ymNext^[t] startD)

/-- Containment test of the source
(`period_start <= current_date_str <= period_end` on "YYYY-MM" strings). -/
def periodCoversb (p : Period) (m : YM) : Bool :=
  ymLeb p.startD m && ymLeb m p.endD

/-- Model of `crop_calendar_to_sequence` (CropCalendar2CropSequence.py):
for each month of the span from the first period's Start_Date to the last
period's End_Date, the Crop of the first period containing it, else the
bare-soil fallback 1 (with a printed warning in the source). The source
raises on an empty calendar (`iloc[0]`); the claims only concern non-empty
calendars, for which this model is exact; we return `[]` on `[]`. -/
def crop_calendar_to_sequence (cal : List Period) : List ℚ :=
  match cal.head?, cal.getLast? with
  | some first, some last =>
      (spanMonths first.startD last.endD).map (fun m =>
        match cal.find? (fun p => periodCoversb p m) with
        | some p => p.crop
        | none => 1)
  | _, _ => []

/-- Model of `build_climate_sequence_from_calendar` (BuildClimateSequence.py):
same span walk as `crop_calendar_to_sequence`; for each month, the selected
variable's value of the first climate row with that Year and Month
(`climate_value.iloc[0]`), and NaN (modelled `none`, with a printed warning
in the source) when no row matches. Raises on an empty calendar in the
source; the claims only concern non-empty calendars. -/
def build_climate_sequence_from_calendar (cal : List Period)
    (climate : List ClimateRow) : List (Option ℚ) :=
  match cal.head?, cal.getLast? with
  | some first, some last =>
      (spanMonths first.startD last.endD).map (fun m =>
        match climate.find? (fun r => r.year == m.year && r.month == m.month) with
        | some r => some r.value
        | none => none)
  | _, _ => []

/-- Number of `Warning: No climate data found` lines printed by
`build_climate_sequence_from_calendar`: the source prints exactly one per
month whose climate lookup comes back empty, i.e. one per `none` entry of
the result. -/
def climateWarnings (cal : List Period) (climate : List ClimateRow) : ℕ :=
  ((build_climate_sequence_from_calendar cal climate).filter
    (fun o => o.isNone)).length

/-- Python `int(...)` on a float: truncation toward zero
(`Int.tdiv` is the toward-zero division). -/
def pyInt (q : ℚ) : ℤ := q.num.tdiv (q.den : ℤ)

/-- Inner `while` loop shared by `create_crop_calendar` and
`create_fym_sequence`: starting at cursor `i`, advance while the element
equals `v` (`while i < len(seq) and seq[i] == v: i += 1`); returns the final
cursor. Fuel-recursive; any fuel `≥ seq.length - i` is exact. -/
def runStop (seq : List ℚ) (v : ℚ) : ℕ → ℕ → ℕ
  | 0, i => i
  | fuel + 1, i => if seq[i]? = some v then runStop seq v fuel (i + 1) else i

/-- Outer grouping loop of `create_crop_calendar`: scan the sequence from
cursor `i`, emitting `(start_idx, end_idx)` of each maximal run of a common
value. -/
def groupLoop (seq : List ℚ) : ℕ → ℕ → List (ℕ × ℕ)
  | 0, _ => []
  | fuel + 1, i =>
      match seq[i]? with
      | none => []
      | some v =>
          let stop := runStop seq v seq.length i
          (i, stop - 1) :: groupLoop seq fuel stop

/-- Rotation label of `create_crop_calendar.get_rotation`: fixed 4-year
buckets counted from the anchor `start_date`'s year (with the peculiar
month-≥-3 clause for the anchor year). -/
def rotationLabel (anchor : YM) (d : YM) : String :=
  if (d.year = anchor.year ∧ 3 ≤ d.month) ∨ d.year < anchor.year + 4 then "Rotation 1"
  else if d.year < anchor.year + 8 then "Rotation 2"
  else if d.year < anchor.year + 12 then "Rotation 3"
  else if d.year < anchor.year + 16 then "Rotation 4"
  else "Rotation 5"

/-- One output row of `create_crop_calendar` for the maximal run with index
range `se`: `Crop = int(current_crop)`, dates from the source's `//12`,
`%12+1` formulas, Crop_Name looked up in the reversed `crop_names` dict
(`{v: k for k, v in crop_names.items()}`: last binding wins), and the
rotation label. -/
def mkCalendarRow (seq : List ℚ) (crop_names : List (String × ℤ))
    (start_date : YM) (se : ℕ × ℕ) : Period :=
  let c : ℤ := pyInt (seq.getD se.1 0)
  { crop := (c : ℚ)
    cropName := (crop_names.reverse.find? (fun p => p.2 == c)).map (fun p => p.1)
    startD := ymAdd start_date se.1
    endD := ymAdd start_date se.2
    rotation := rotationLabel start_date (ymAdd start_date se.1) }

/-- Model of `create_crop_calendar` (CreateCropCalendar.py): run-length group
the monthly crop codes into maximal runs and emit one calendar row per run. -/
def create_crop_calendar (seq : List ℚ) (crop_names : List (String × ℤ))
    (start_date : YM) : List Period :=
  (groupLoop seq seq.length 0).map (mkCalendarRow seq crop_names start_date)

/-- Concatenation stage of `duplicate_crop_calendar`: `n_duplications + 1`
copies of the calendar, copy `i` with `Rotation = "Rotation " + str(i+1)` and
both dates' years shifted by `i * 8` (the month string is kept as is). -/
def duplicateConcat (cal : List Period) (n : ℕ) : List Period :=
  ((List.range (n + 1)).map (fun i =>
    cal.map (fun p =>
      { p with
        rotation := "Rotation " ++ toString (i + 1)
        startD := ⟨p.startD.year + i * 8, p.startD.month⟩
        endD := ⟨p.endD.year + i * 8, p.endD.month⟩ }))).flatten

/-- One step of `duplicate_crop_calendar`'s gap-closure loop at cursor `i`:
if the next row starts more than one month after the current row ends
(`next_total_months > current_total_months + 1`), set the current row's
End_Date to the month before the next row's Start_Date. -/
def gapCloseStep (l : List Period) (i : ℕ) : List Period :=
  match l[i]?, l[i + 1]? with
  | some cur, some nxt =>
      if monthIndex cur.endD + 1 < monthIndex nxt.startD then
        l.set i { cur with endD := ymPrev nxt.startD }
      else l
  | _, _ => l

/-- Model of `duplicate_crop_calendar` (DuplicateCropCalendar.py):
concatenate the date-shifted copies, then run the gap-closure loop
`for i in range(len(final_calendar) - 1)`. -/
def duplicate_crop_calendar (cal : List Period) (n : ℕ) : List Period :=
  let final := duplicateConcat cal n
  (List.range (final.length - 1)).foldl gapCloseStep final

/-- Block-scanning loop of `create_fym_sequence`: from cursor `i`, emit
`(block_start, block_end)` for each maximal run of the target crop, skipping
single non-target entries. -/
def fymBlocks (seq : List ℚ) (tgt : ℚ) : ℕ → ℕ → List (ℕ × ℕ)
  | 0, _ => []
  | fuel + 1, i =>
      match seq[i]? with
      | none => []
      | some v =>
          if v = tgt then
            let stop := runStop seq tgt seq.length i
            (i, stop - 1) :: fymBlocks seq tgt fuel stop
          else fymBlocks seq tgt fuel (i + 1)

/-- Model of `create_fym_sequence` (CreateFymSequence.py): zero sequence of
the input's length, then for each block of consecutive `target_crop` values
whose 1-indexed block number is even, set the value at the block's last
index to `fym_mean`. -/
def create_fym_sequence (seq : List ℚ) (fym_mean : ℚ) (tgt : ℚ) : List ℚ :=
  ((fymBlocks seq tgt seq.length 0).enum.filter
      (fun b => (b.1 + 1) % 2 = 0)).foldl
    (fun acc b => acc.set b.2.2 fym_mean)
    (List.replicate seq.length 0)

/-- Inner block-end search of `transform_agb_rothc`:
`while j + 1 < len(values) and values[j+1] == values[i]: j += 1`. A NaN entry
(`none`) never equals `some v`, so it ends the block, as NaN comparison does
in the source. -/
def blockEndT (vs : List (Option ℚ)) (v : ℚ) : ℕ → ℕ → ℕ
  | 0, j => j
  | fuel + 1, j =>
      if vs[(j + 1)]? = some (some v) then blockEndT vs v fuel (j + 1) else j

/-- Block mutation of `transform_agb_rothc` on run `[i, j]` of value `v`:
`values[i:j+1] = 0`, then `values[j] = v/2`, then
`values[k] = v/6 for k in range(max(i, j-3), j)`. -/
def applyBlock (vs : List (Option ℚ)) (i j : ℕ) (v : ℚ) : List (Option ℚ) :=
  (List.range vs.length).map (fun k =>
    if k < i ∨ j < k then vs.getD k none
    else if k = j then some (v / 2)
    else if max i (j - 3) ≤ k then some (v / 6)
    else some 0)

/-- Main `while i < len(values)` loop of `transform_agb_rothc`. The Boolean
component models whether the local variable `result_series` has been
assigned: the source only assigns it in the iterations that process a value
block (the `continue` for NaN/zero entries skips the assignment). -/
def transformLoop : ℕ → List (Option ℚ) → ℕ → Bool → List (Option ℚ) × Bool
  | 0, vs, _, assigned => (vs, assigned)
  | fuel + 1, vs, i, assigned =>
      match vs[i]? with
      | none => (vs, assigned)
      | some none => transformLoop fuel vs (i + 1) assigned
      | some (some v) =>
          if v = 0 then transformLoop fuel vs (i + 1) assigned
          else
            let j := blockEndT vs v vs.length i
            transformLoop fuel (applyBlock vs i j v) (j + 1) true

/-- Model of `transform_agb_rothc` (TransformAGBRothC.py). Returns `none`
when the source raises `UnboundLocalError`: `return result_series` with
`result_series` never assigned, which happens exactly when no non-zero,
non-NaN entry exists. Otherwise returns the mutated values with NaN
replaced by 0 (`fillna(0)`). -/
def transform_agb_rothc (series : List (Option ℚ)) : Option (List ℚ) :=
  let r := transformLoop series.length series 0 false
  if r.2 then some (r.1.map (fun o => o.getD 0)) else none

/-- Maximum of a pandas float Series (`shortwave_rad.max()`), `none` on an
empty series. -/
def seriesMax : List ℚ → Option ℚ
  | [] => none
  | x :: xs =>
      match seriesMax xs with
      | none => some x
      | some m => some (max x m)

/-- Radiation unit conversion step of `calculate_pet_penman_monteith`
(CalculatePETPM.py, the `rs` computation): if the series maximum exceeds 50
the whole series is taken to be W/m² and multiplied by 0.0864, otherwise the
whole series is used unchanged. The remainder of the function (the
transcendental Penman-Monteith formula) is not involved in any claim. -/
def convert_shortwave_rad (shortwave : List ℚ) : List ℚ :=
  match seriesMax shortwave with
  | some m => if 50 < m then shortwave.map (fun x => x * (864 / 10000)) else shortwave
  | none => shortwave

/-! ### Date arithmetic lemmas -/

theorem monthIndex_ymAdd (d : YM) (i : ℕ) (hm : 1 ≤ d.month) :
    monthIndex (ymAdd d i) = monthIndex d + i := by
  cases d with
  | mk y m =>
    have hm' : 1 ≤ m := hm
    simp only [monthIndex, ymAdd]
    omega

theorem ymAdd_month_bounds (d : YM) (i : ℕ) :
    1 ≤ (ymAdd d i).month ∧ (ymAdd d i).month ≤ 12 := by
  cases d with
  | mk y m =>
    simp only [ymAdd]
    omega

theorem ymAdd_zero (d : YM) (hm1 : 1 ≤ d.month) (hm2 : d.month ≤ 12) :
    ymAdd d 0 = d := by
  cases d with
  | mk y m =>
    have hm1' : 1 ≤ m := hm1
    have hm2' : m ≤ 12 := hm2
    simp only [ymAdd, YM.mk.injEq]
    omega

theorem ymNext_ymAdd (d : YM) (i : ℕ) (hm : 1 ≤ d.month) :
    ymAdd d (i + 1) = ymNext (ymAdd d i) := by
  cases d with
  | mk y m =>
    have hm' : 1 ≤ m := hm
    simp only [ymAdd, ymNext]
    split <;> simp_all only [YM.mk.injEq] <;> omega

theorem iterate_ymNext (d : YM) (t : ℕ) (hm1 : 1 ≤ d.month) (hm2 : d.month ≤ 12) :
    ymNext^[t] d = ymAdd d t := by
  induction t with
  | zero => simp [ymAdd_zero d hm1 hm2]
  | succ n ih =>
    rw [Function.iterate_succ_apply', ih, ← ymNext_ymAdd d n hm1]

theorem ymLeb_iff (a b : YM) (ha1 : 1 ≤ a.month) (ha2 : a.month ≤ 12)
    (hb1 : 1 ≤ b.month) (hb2 : b.month ≤ 12) :
    ymLeb a b = true ↔ monthIndex a ≤ monthIndex b := by
  cases a with
  | mk ya ma =>
    cases b with
    | mk yb mb =>
      simp only [ymLeb, monthIndex, Bool.or_eq_true, Bool.and_eq_true,
        Nat.blt_eq, beq_iff_eq, Nat.ble_eq] at *
      omega

/-! ### Span lemmas -/

theorem spanMonths_length (s e : YM) :
    (spanMonths s e).length = ((monthIndex e : ℤ) - monthIndex s + 1).toNat := by
  simp [spanMonths]

theorem spanMonths_getD (s e : YM) (hm1 : 1 ≤ s.month) (hm2 : s.month ≤ 12)
    (t : ℕ) (ht : t < (spanMonths s e).length) :
    (spanMonths s e).getD t default = ymAdd s t := by
  rw [spanMonths_length] at ht
  simp [spanMonths, List.getD_eq_getElem?_getD, List.getElem?_map,
    List.getElem?_range, ht, iterate_ymNext s t hm1 hm2]

/-- First-match-wins characterization of `List.find?`. -/
theorem find?_of_first {α : Type} (p : α → Bool) (l : List α) (k : ℕ)
    (hk : k < l.length) (hp : p l[k] = true)
    (hmin : ∀ k', (hk' : k' < l.length) → k' < k → p l[k'] = false) :
    l.find? p = some l[k] := by
  induction l generalizing k with
  | nil => exact absurd hk (by simp)
  | cons a as ih =>
    cases k with
    | zero => simp_all [List.find?]
    | succ n =>
      have ha : p a = false := hmin 0 (by simp) (by omega)
      have hn : n < as.length := by simpa using hk
      rw [List.find?_cons_of_neg _ (by simp [ha])]
      have := ih n hn (by simpa using hp)
        (fun k' hk' hlt => by
          have := hmin (k' + 1) (by simpa using Nat.succ_lt_succ hk') (by omega)
          simpa using this)
      simpa using this

theorem spanMonths_getElem? (s e : YM) (hm1 : 1 ≤ s.month) (hm2 : s.month ≤ 12)
    (t : ℕ) (ht : t < (spanMonths s e).length) :
    (spanMonths s e)[t]? = some (ymAdd s t) := by
  rw [spanMonths_length] at ht
  simp [spanMonths, List.getElem?_map, List.getElem?_range, ht,
    iterate_ymNext s t hm1 hm2]

theorem crop_seq_eq (cal : List Period) (h : cal ≠ []) :
    crop_calendar_to_sequence cal =
      (spanMonths (cal.head h).startD (cal.getLast h).endD).map (fun m =>
        match cal.find? (fun p => periodCoversb p m) with
        | some p => p.crop
        | none => 1) := by
  unfold crop_calendar_to_sequence
  rw [List.head?_eq_head h, List.getLast?_eq_getLast cal h]

theorem climate_seq_eq (cal : List Period) (climate : List ClimateRow) (h : cal ≠ []) :
    build_climate_sequence_from_calendar cal climate =
      (spanMonths (cal.head h).startD (cal.getLast h).endD).map (fun m =>
        match climate.find? (fun r => r.year == m.year && r.month == m.month) with
        | some r => some r.value
        | none => none) := by
  unfold build_climate_sequence_from_calendar
  rw [List.head?_eq_head h, List.getLast?_eq_getLast cal h]

/-- C8: for every non-empty calendar and every climate table and variable,
`build_climate_sequence_from_calendar` and `crop_calendar_to_sequence`
return sequences of exactly the same length, both equal to the number of
months from the first period's start to the last period's end inclusive. -/
theorem alignment_lengths_agree (cal : List Period) (climate : List ClimateRow)
    (h : cal ≠ []) :
    (build_climate_sequence_from_calendar cal climate).length
      = (crop_calendar_to_sequence cal).length
    ∧ (crop_calendar_to_sequence cal).length
      = ((monthIndex (cal.getLast h).endD : ℤ)
          - monthIndex (cal.head h).startD + 1).toNat := by
  rw [crop_seq_eq cal h, climate_seq_eq cal climate h]
  simp [spanMonths_length]

/-- Three-month single-period example calendar (2025-01 .. 2025-03). -/
def exCal : List Period := [{ crop := 7, startD := ⟨2025, 1⟩, endD := ⟨2025, 3⟩ }]

/-- Witness for C8 at a concrete calendar and an empty climate table. -/
theorem alignment_lengths_agree_witness :
    (build_climate_sequence_from_calendar exCal []).length
      = (crop_calendar_to_sequence exCal).length
    ∧ (crop_calendar_to_sequence exCal).length = 3 := by
  have h := alignment_lengths_agree exCal [] (by decide)
  exact ⟨h.1, by decide⟩

/-- C4: for every non-empty calendar with parseable dates,
`crop_calendar_to_sequence` never fails and returns one crop code per month
of the span from the first period's start to the last period's end
inclusive; a month gets the crop of the first period (in list order) whose
inclusive interval contains it, and the bare-soil fallback 1 when no period
contains it. -/
theorem crop_sequence_spec (cal : List Period) (h : cal ≠ [])
    (hm1 : 1 ≤ (cal.head h).startD.month) (hm2 : (cal.head h).startD.month ≤ 12) :
    (crop_calendar_to_sequence cal).length
      = ((monthIndex (cal.getLast h).endD : ℤ)
          - monthIndex (cal.head h).startD + 1).toNat
    ∧ ∀ t, t < (crop_calendar_to_sequence cal).length →
        ((∀ p ∈ cal, ¬ periodCoversb p (ymAdd (cal.head h).startD t) = true) →
            (crop_calendar_to_sequence cal).getD t 0 = 1)
        ∧ (∀ k, (hk : k < cal.length) →
            periodCoversb cal[k] (ymAdd (cal.head h).startD t) = true →
            (∀ k', (hk' : k' < cal.length) → k' < k →
              ¬ periodCoversb cal[k'] (ymAdd (cal.head h).startD t) = true) →
            (crop_calendar_to_sequence cal).getD t 0 = cal[k].crop) := by
  constructor
  · rw [crop_seq_eq cal h]
    simp [spanMonths_length]
  · intro t ht
    rw [crop_seq_eq cal h] at ht ⊢
    rw [List.length_map] at ht
    rw [List.getD_eq_getElem?_getD, List.getElem?_map,
      spanMonths_getElem? _ _ hm1 hm2 t ht]
    constructor
    · intro hnone
      have : cal.find? (fun p => periodCoversb p (ymAdd (cal.head h).startD t)) = none :=
        List.find?_eq_none.mpr hnone
      simp [this]
    · intro k hk hcov hmin
      have : cal.find? (fun p => periodCoversb p (ymAdd (cal.head h).startD t))
          = some cal[k] :=
        find?_of_first _ cal k hk hcov
          (fun k' hk' hlt => by
            have := hmin k' hk' hlt
            simp only [Bool.not_eq_true] at this
            exact this)
      simp [this]

/-- Witness for C4: the example calendar covers its first month with its
only period, and a two-period overlap resolves to the first period. -/
theorem crop_sequence_spec_witness :
    (crop_calendar_to_sequence exCal).length = 3
    ∧ (crop_calendar_to_sequence exCal).getD 0 0 = 7 := by
  have h := crop_sequence_spec exCal (by decide) (by decide) (by decide)
  refine ⟨by decide, ?_⟩
  have h2 := (h.2 0 (by decide)).2 0 (by decide) (by decide)
    (fun k' hk' hlt => absurd hlt (by omega))
  simpa using h2

theorem climate_seq_length (cal : List Period) (climate : List ClimateRow)
    (h : cal ≠ []) :
    (build_climate_sequence_from_calendar cal climate).length
      = ((monthIndex (cal.getLast h).endD : ℤ)
          - monthIndex (cal.head h).startD + 1).toNat := by
  rw [climate_seq_eq cal climate h]
  simp [spanMonths_length]

theorem climate_seq_getD (cal : List Period) (climate : List ClimateRow)
    (h : cal ≠ [])
    (hm1 : 1 ≤ (cal.head h).startD.month) (hm2 : (cal.head h).startD.month ≤ 12)
    (t : ℕ) (ht : t < (build_climate_sequence_from_calendar cal climate).length) :
    (build_climate_sequence_from_calendar cal climate).getD t none
      = (climate.find? (fun r =>
          r.year == (ymAdd (cal.head h).startD t).year
            && r.month == (ymAdd (cal.head h).startD t).month)).map
          (fun r => r.value) := by
  rw [climate_seq_eq cal climate h] at ht ⊢
  rw [List.length_map] at ht
  rw [List.getD_eq_getElem?_getD, List.getElem?_map,
    spanMonths_getElem? _ _ hm1 hm2 t ht]
  cases hf : climate.find? (fun r =>
      r.year == (ymAdd (cal.head h).startD t).year
        && r.month == (ymAdd (cal.head h).startD t).month) with
  | none => simp [hf]
  | some r => simp [hf]

/-- C7: `build_climate_sequence_from_calendar` never fails: it emits one
entry per month of the calendar span — the value of the first climate
record keyed by that (year, month) when one exists, and the missing
placeholder (`none`, modelling NaN, with one printed warning) otherwise.
In particular, for a calendar spanning 2025-01..2025-03 and a table missing
2025-02, the output is `[v_jan, none, v_mar]` with exactly one warning. -/
theorem climate_align_never_fails :
    (∀ (cal : List Period) (climate : List ClimateRow) (h : cal ≠ []),
      1 ≤ (cal.head h).startD.month → (cal.head h).startD.month ≤ 12 →
      (build_climate_sequence_from_calendar cal climate).length
        = ((monthIndex (cal.getLast h).endD : ℤ)
            - monthIndex (cal.head h).startD + 1).toNat
      ∧ ∀ t, t < (build_climate_sequence_from_calendar cal climate).length →
          (build_climate_sequence_from_calendar cal climate).getD t none
            = (climate.find? (fun r =>
                r.year == (ymAdd (cal.head h).startD t).year
                  && r.month == (ymAdd (cal.head h).startD t).month)).map
                (fun r => r.value))
    ∧ ∀ v1 v3 : ℚ,
        build_climate_sequence_from_calendar exCal
            [⟨2025, 1, v1⟩, ⟨2025, 3, v3⟩] = [some v1, none, some v3]
        ∧ climateWarnings exCal [⟨2025, 1, v1⟩, ⟨2025, 3, v3⟩] = 1 := by
  refine ⟨fun cal climate h hm1 hm2 =>
    ⟨climate_seq_length cal climate h,
     fun t ht => climate_seq_getD cal climate h hm1 hm2 t ht⟩, fun v1 v3 => ⟨rfl, rfl⟩⟩

/-- Witness for C7 at the concrete 2025 calendar and table. -/
theorem climate_align_never_fails_witness :
    build_climate_sequence_from_calendar exCal [⟨2025, 1, 5⟩, ⟨2025, 3, 7⟩]
        = [some 5, none, some 7]
    ∧ climateWarnings exCal [⟨2025, 1, 5⟩, ⟨2025, 3, 7⟩] = 1
    ∧ (build_climate_sequence_from_calendar exCal
        [⟨2025, 1, 5⟩, ⟨2025, 3, 7⟩]).getD 1 none = none := by
  obtain ⟨hgen, hex⟩ := climate_align_never_fails
  obtain ⟨h1, h2⟩ := hex 5 7
  refine ⟨h1, h2, ?_⟩
  have h3 := (hgen exCal [⟨2025, 1, 5⟩, ⟨2025, 3, 7⟩] (by decide)
    (by decide) (by decide)).2 1 (by decide)
  exact h3.trans (by decide)

/-- C10 (implicit): with duplicate (year, month) keys in the climate table,
`build_climate_sequence_from_calendar` does not fail and emits the value of
the first matching row in table order, ignoring the later duplicates. -/
theorem climate_first_duplicate_wins (cal : List Period) (climate : List ClimateRow)
    (h : cal ≠ [])
    (hm1 : 1 ≤ (cal.head h).startD.month) (hm2 : (cal.head h).startD.month ≤ 12)
    (t : ℕ) (ht : t < (build_climate_sequence_from_calendar cal climate).length)
    (k1 k2 : ℕ) (hk1 : k1 < climate.length) (hk2 : k2 < climate.length)
    (hlt : k1 < k2)
    (hmatch1 : (climate[k1].year == (ymAdd (cal.head h).startD t).year
        && climate[k1].month == (ymAdd (cal.head h).startD t).month) = true)
    (hmatch2 : (climate[k2].year == (ymAdd (cal.head h).startD t).year
        && climate[k2].month == (ymAdd (cal.head h).startD t).month) = true)
    (hfirst : ∀ k', (hk' : k' < climate.length) → k' < k1 →
        (climate[k'].year == (ymAdd (cal.head h).startD t).year
          && climate[k'].month == (ymAdd (cal.head h).startD t).month) = false) :
    (build_climate_sequence_from_calendar cal climate).getD t none
      = some (climate[k1].value) := by
  rw [climate_seq_getD cal climate h hm1 hm2 t ht,
    find?_of_first _ climate k1 hk1 hmatch1 hfirst]
  rfl

/-- Witness for C10: a table with two rows for 2025-01; the first value (5)
is the one emitted. -/
theorem climate_first_duplicate_wins_witness :
    (build_climate_sequence_from_calendar exCal
        [⟨2025, 1, 5⟩, ⟨2025, 1, 42⟩]).getD 0 none = some 5 := by
  have := climate_first_duplicate_wins exCal [⟨2025, 1, 5⟩, ⟨2025, 1, 42⟩]
    (by decide) (by decide) (by decide) 0 (by decide) 0 1
    (by decide) (by decide) (by decide) (by decide) (by decide)
    (fun k' hk' hlt => absurd hlt (by omega))
  simpa using this

/-! ### C9: radiation unit conversion -/

theorem seriesMax_spec (l : List ℚ) :
    match seriesMax l with
    | none => l = []
    | some m => m ∈ l ∧ ∀ x ∈ l, x ≤ m := by
  induction l with
  | nil => simp [seriesMax]
  | cons x xs ih =>
    cases hm : seriesMax xs with
    | none =>
      rw [hm] at ih
      subst ih
      simp [seriesMax]
    | some m =>
      rw [hm] at ih
      simp only [seriesMax, hm]
      refine ⟨?_, ?_⟩
      · rcases le_total x m with hxm | hmx
        · rw [max_eq_right hxm]
          exact List.mem_cons_of_mem x ih.1
        · rw [max_eq_left hmx]
          exact List.mem_cons_self x xs
      · intro y hy
        rcases List.mem_cons.mp hy with rfl | hy'
        · exact le_max_left y m
        · exact le_trans (ih.2 y hy') (le_max_right x m)

/-- C9 counterexample: on the series `[100, 10]` the code does not apply the
claimed per-value rule (convert values above 50, keep values at most 50):
since the series maximum exceeds 50, the value 10 is also multiplied by
0.0864. -/
theorem shortwave_per_value_counterexample :
    convert_shortwave_rad [100, 10]
      ≠ [100, 10].map (fun x => if 50 < x then x * (864 / 10000) else x) := by
  norm_num [convert_shortwave_rad, seriesMax]

/-- C9 amended: the unit auto-detection of `calculate_pet_penman_monteith`
is per series, not per value: when any value of the radiation series
exceeds 50 (i.e. the series maximum does), every value is multiplied by
0.0864; otherwise the whole series is used unchanged. -/
theorem shortwave_series_conversion (rad : List ℚ) :
    convert_shortwave_rad rad
      = if rad.any (fun x => decide (50 < x))
        then rad.map (fun x => x * (864 / 10000))
        else rad := by
  have hs := seriesMax_spec rad
  unfold convert_shortwave_rad
  cases hm : seriesMax rad with
  | none =>
    rw [hm] at hs
    subst hs
    simp
  | some m =>
    rw [hm] at hs
    by_cases h50 : 50 < m
    · have hany : rad.any (fun x => decide (50 < x)) = true :=
        List.any_eq_true.mpr ⟨m, hs.1, by simpa using h50⟩
      simp [h50, hany]
    · have hany : rad.any (fun x => decide (50 < x)) = false := by
        rw [List.any_eq_false]
        intro x hx
        simp only [decide_eq_true_eq]
        push_neg at h50 ⊢
        exact le_trans (hs.2 x hx) h50
      simp [h50, hany]

/-! ### C6: calendar duplication -/

theorem gapCloseStep_length (l : List Period) (i : ℕ) :
    (gapCloseStep l i).length = l.length := by
  unfold gapCloseStep
  cases h1 : l[i]? with
  | none => rfl
  | some cur =>
    cases h2 : l[(i + 1)]? with
    | none => rfl
    | some nxt =>
      dsimp only
      split <;> simp [List.length_set]

/-- State of the gap-closure loop after the first `m` iterations: rows below
`m` hold their final, original-neighbor-based value; rows from `m` on are
untouched. -/
theorem gapCloseUpTo (l : List Period) (m : ℕ) :
    ((List.range m).foldl gapCloseStep l).length = l.length
    ∧ ∀ k, (k < m →
        ((List.range m).foldl gapCloseStep l)[k]?
          = match l[k]?, l[(k + 1)]? with
            | some cur, some nxt =>
                some (if monthIndex cur.endD + 1 < monthIndex nxt.startD
                      then { cur with endD := ymPrev nxt.startD } else cur)
            | some cur, none => some cur
            | none, _ => none)
      ∧ (m ≤ k → ((List.range m).foldl gapCloseStep l)[k]? = l[k]?) := by
  induction m with
  | zero => simp
  | succ m ih =>
    rw [List.range_succ, List.foldl_append, List.foldl_cons, List.foldl_nil]
    set s := (List.range m).foldl gapCloseStep l with hs
    obtain ⟨ihlen, ihk⟩ := ih
    have hsm : s[m]? = l[m]? := (ihk m).2 le_rfl
    have hsm1 : s[(m + 1)]? = l[(m + 1)]? := (ihk (m + 1)).2 (by omega)
    have hstep_len : (gapCloseStep s m).length = l.length := by
      rw [gapCloseStep_length]; exact ihlen
    refine ⟨hstep_len, fun k => ⟨?_, ?_⟩⟩
    · intro hk
      rcases Nat.lt_succ_iff_lt_or_eq.mp hk with hk' | rfl
      · have hne : m ≠ k := by omega
        have hrew : (gapCloseStep s m)[k]? = s[k]? := by
          unfold gapCloseStep
          cases h1 : s[m]? with
          | none => rfl
          | some cur =>
            cases h2 : s[(m + 1)]? with
            | none => rfl
            | some nxt =>
              dsimp only
              split
              · exact List.getElem?_set_ne hne
              · rfl
        rw [hrew]
        exact (ihk k).1 hk'
      · unfold gapCloseStep
        rw [hsm, hsm1]
        cases h1 : l[k]? with
        | none => simpa [h1] using hsm
        | some cur =>
          cases h2 : l[(k + 1)]? with
          | none => simpa [h1] using hsm
          | some nxt =>
            dsimp only
            have hklen : k < s.length := by
              rw [ihlen]
              exact (List.getElem?_eq_some_iff.mp h1).choose
            split
            · rw [List.getElem?_set_self hklen]
            · rw [hsm, h1]
    · intro hk
      have hne : m ≠ k := by omega
      have hrew : (gapCloseStep s m)[k]? = s[k]? := by
        unfold gapCloseStep
        cases h1 : s[m]? with
        | none => rfl
        | some cur =>
          cases h2 : s[(m + 1)]? with
          | none => rfl
          | some nxt =>
            dsimp only
            split
            · exact List.getElem?_set_ne hne
            · rfl
      rw [hrew]
      exact (ihk k).2 (by omega)

theorem gapClose_getElem? (l : List Period) (k : ℕ) :
    ((List.range (l.length - 1)).foldl gapCloseStep l)[k]?
      = match l[k]?, l[(k + 1)]? with
        | some cur, some nxt =>
            some (if monthIndex cur.endD + 1 < monthIndex nxt.startD
                  then { cur with endD := ymPrev nxt.startD } else cur)
        | some cur, none => some cur
        | none, _ => none := by
  obtain ⟨hlen, hk⟩ := gapCloseUpTo l (l.length - 1)
  by_cases h : k < l.length - 1
  · exact (hk k).1 h
  · rw [(hk k).2 (by omega)]
    by_cases h2 : k < l.length
    · have hk1 : l[(k + 1)]? = none := List.getElem?_eq_none (by omega)
      rw [hk1]
      cases h1 : l[k]? with
      | none => rfl
      | some cur => rfl
    · have hk0 : l[k]? = none := List.getElem?_eq_none (by omega)
      have hk1 : l[(k + 1)]? = none := List.getElem?_eq_none (by omega)
      rw [hk0, hk1]

theorem flatten_map_range_length {α : Type} (g : ℕ → List α) (L m : ℕ)
    (hL : ∀ i, (g i).length = L) :
    (((List.range m).map g).flatten).length = m * L := by
  rw [List.length_flatten, List.map_map]
  have hconst : (List.length ∘ g) = Function.const ℕ L := funext fun i => hL i
  rw [hconst, List.map_const, List.length_range, List.sum_replicate, smul_eq_mul]

theorem flatten_map_range_getElem {α : Type} (g : ℕ → List α) (L m c r : ℕ)
    (hL : ∀ i, (g i).length = L) (hc : c < m) (hr : r < L) :
    (((List.range m).map g).flatten)[c * L + r]? = (g c)[r]? := by
  induction c generalizing g m with
  | zero =>
    obtain ⟨m', rfl⟩ : ∃ m', m = m' + 1 := ⟨m - 1, by omega⟩
    rw [List.range_succ_eq_map, List.map_cons, List.flatten_cons,
      show 0 * L + r = r from by omega, List.getElem?_append]
    rw [if_pos (by rw [hL 0]; exact hr)]
  | succ c ih =>
    obtain ⟨m', rfl⟩ : ∃ m', m = m' + 1 := ⟨m - 1, by omega⟩
    rw [List.range_succ_eq_map, List.map_cons, List.flatten_cons, List.map_map]
    rw [List.getElem?_append_right
      (by rw [hL 0, Nat.succ_mul]; omega)]
    have hidx : (c + 1) * L + r - (g 0).length = c * L + r := by
      rw [hL 0, Nat.succ_mul]; omega
    rw [hidx]
    exact ih (g ∘ Nat.succ) m' (fun i => hL (i + 1)) (by omega)

/-- The single-period calendar 2004-03..2008-02 of the C6 example. -/
def exDupCal : List Period :=
  [{ crop := 7, startD := ⟨2004, 3⟩, endD := ⟨2008, 2⟩, rotation := "Rotation 1" }]

/-- C6: `duplicate_crop_calendar` returns `n + 1` concatenated copies, copy
`c` (0-based) with both dates shifted forward by `c × 8` years and rotation
label `"Rotation c+1"`; then every row whose gap to the next row exceeds one
month has its end extended to the month immediately before the next row's
start. In particular the 1-period calendar 2004-03..2008-02 duplicated twice
gives three contiguous periods starting 2004-03, 2012-03, 2020-03. -/
theorem duplicate_calendar_spec :
    (∀ (cal : List Period) (n : ℕ),
      (duplicate_crop_calendar cal n).length = (n + 1) * cal.length
      ∧ (∀ c r, c ≤ n → (hr : r < cal.length) →
          (duplicateConcat cal n)[c * cal.length + r]?
            = some { cal[r] with
                rotation := "Rotation " ++ toString (c + 1)
                startD := ⟨cal[r].startD.year + c * 8, cal[r].startD.month⟩
                endD := ⟨cal[r].endD.year + c * 8, cal[r].endD.month⟩ })
      ∧ (∀ k, (duplicate_crop_calendar cal n)[k]?
            = match (duplicateConcat cal n)[k]?, (duplicateConcat cal n)[(k + 1)]? with
              | some cur, some nxt =>
                  some (if monthIndex cur.endD + 1 < monthIndex nxt.startD
                        then { cur with endD := ymPrev nxt.startD } else cur)
              | some cur, none => some cur
              | none, _ => none))
    ∧ duplicate_crop_calendar exDupCal 2
        = [{ crop := 7, startD := ⟨2004, 3⟩, endD := ⟨2012, 2⟩, rotation := "Rotation 1" },
           { crop := 7, startD := ⟨2012, 3⟩, endD := ⟨2020, 2⟩, rotation := "Rotation 2" },
           { crop := 7, startD := ⟨2020, 3⟩, endD := ⟨2024, 2⟩, rotation := "Rotation 3" }] := by
  refine ⟨fun cal n => ⟨?_, ?_, ?_⟩, by decide⟩
  · show ((List.range ((duplicateConcat cal n).length - 1)).foldl gapCloseStep
      (duplicateConcat cal n)).length = (n + 1) * cal.length
    rw [(gapCloseUpTo (duplicateConcat cal n) ((duplicateConcat cal n).length - 1)).1]
    exact flatten_map_range_length _ cal.length (n + 1) (fun i => List.length_map cal _)
  · intro c r hc hr
    unfold duplicateConcat
    rw [flatten_map_range_getElem _ cal.length (n + 1) c r
      (fun i => List.length_map cal _) (by omega) hr]
    rw [List.getElem?_map, List.getElem?_eq_getElem hr]
    rfl
  · intro k
    exact gapClose_getElem? (duplicateConcat cal n) k

/-- Witness for C6 at the example calendar: length, the shifted third copy,
and the gap-closed first row. -/
theorem duplicate_calendar_spec_witness :
    (duplicate_crop_calendar exDupCal 2).length = 3
    ∧ (duplicateConcat exDupCal 2)[2 * exDupCal.length + 0]?
        = some { crop := 7, startD := ⟨2020, 3⟩, endD := ⟨2024, 2⟩,
                 rotation := "Rotation 3" }
    ∧ (duplicate_crop_calendar exDupCal 2)[0]?
        = some { crop := 7, startD := ⟨2004, 3⟩, endD := ⟨2012, 2⟩,
                 rotation := "Rotation 1" } := by
  obtain ⟨hgen, hex⟩ := duplicate_calendar_spec
  obtain ⟨hlen, hcopy, hclose⟩ := hgen exDupCal 2
  exact ⟨hlen.trans (by decide), (hcopy 2 0 le_rfl (by decide)).trans (by decide),
    (hclose 0).trans (by decide)⟩

/-! ### C3: transform_agb_rothc on inputs with no event run -/

theorem transformLoop_no_event (fuel : ℕ) (vs : List (Option ℚ)) (i : ℕ)
    (h : ∀ x ∈ vs, x = none ∨ x = some 0) :
    transformLoop fuel vs i false = (vs, false) := by
  induction fuel generalizing i with
  | zero => rfl
  | succ fuel ih =>
    unfold transformLoop
    cases hv : vs[i]? with
    | none => rfl
    | some x =>
      have hx : x ∈ vs := List.getElem?_mem hv
      cases x with
      | none => exact ih (i + 1)
      | some v =>
        rcases h _ hx with hc | hc
        · exact absurd hc (by simp)
        · have hv0 : v = 0 := by simpa using hc
          dsimp only
          rw [if_pos hv0]
          exact ih (i + 1)

/-- C3 (code bug): on a series with no event run — every entry zero or NaN —
`transform_agb_rothc` does not return a sequence at all: the source's
`result_series` assignment sits inside the `while` loop after the block
processing and is skipped by the `continue` branch, so `return result_series`
raises `UnboundLocalError` (modelled by `none`). The claim's guarantee
(never fails, zeros pass through, NaN replaced by 0) is violated on exactly
these inputs. -/
theorem transform_no_event_failure :
    (∀ series : List (Option ℚ), (∀ x ∈ series, x = none ∨ x = some 0) →
      transform_agb_rothc series = none)
    ∧ transform_agb_rothc [some 0, some 0, none] = none := by
  constructor
  · intro series h
    unfold transform_agb_rothc
    rw [transformLoop_no_event series.length series 0 h]
    rfl
  · decide

/-- Witness for C3's general part at the all-zero two-month series. -/
theorem transform_no_event_failure_witness :
    transform_agb_rothc [some 0, some 0] = none :=
  transform_no_event_failure.1 [some 0, some 0] (by decide)

/-! ### C5: manure scheduling on even-numbered target-crop blocks -/

theorem runStop_le (seq : List ℚ) (v : ℚ) :
    ∀ fuel i, i ≤ runStop seq v fuel i := by
  intro fuel
  induction fuel with
  | zero => intro i; exact le_rfl
  | succ fuel ih =>
    intro i
    unfold runStop
    split
    · exact le_trans (Nat.le_succ i) (ih (i + 1))
    · exact le_rfl

theorem runStop_entries (seq : List ℚ) (v : ℚ) :
    ∀ fuel i k, i ≤ k → k < runStop seq v fuel i → seq[k]? = some v := by
  intro fuel
  induction fuel with
  | zero => intro i k hik hk; exact absurd hk (by simp [runStop]; omega)
  | succ fuel ih =>
    intro i k hik hk
    unfold runStop at hk
    by_cases hv : seq[i]? = some v
    · rw [if_pos hv] at hk
      rcases Nat.eq_or_lt_of_le hik with rfl | hik'
      · exact hv
      · exact ih (i + 1) k hik' hk
    · rw [if_neg hv] at hk
      omega

theorem runStop_stop (seq : List ℚ) (v : ℚ) :
    ∀ fuel i, seq.length - i ≤ fuel → seq[(runStop seq v fuel i)]? ≠ some v := by
  intro fuel
  induction fuel with
  | zero =>
    intro i hfuel
    have : seq.length ≤ i := by omega
    simp [runStop, List.getElem?_eq_none this]
  | succ fuel ih =>
    intro i hfuel
    unfold runStop
    by_cases hv : seq[i]? = some v
    · rw [if_pos hv]
      have hi : i < seq.length := by
        by_contra hc
        rw [List.getElem?_eq_none (by omega)] at hv
        exact absurd hv (by simp)
      exact ih (i + 1) (by omega)
    · rw [if_neg hv]
      exact hv

/-- Last-month-of-a-maximal-target-run predicate: the declarative form of
the blocks found by `create_fym_sequence` (entry is the target and the next
entry is not). -/
def fymRunEnd (seq : List ℚ) (tgt : ℚ) (e : ℕ) : Bool :=
  decide (seq[e]? = some tgt) && !(decide (seq[(e + 1)]? = some tgt))

/-- Ends of the maximal target runs living at or after cursor `i`, in
increasing order. -/
def runEndsFrom (seq : List ℚ) (tgt : ℚ) (i : ℕ) : List ℕ :=
  (List.range' i (seq.length - i)).filter (fymRunEnd seq tgt)

theorem runEndsFrom_oob (seq : List ℚ) (tgt : ℚ) (i : ℕ) (h : seq.length ≤ i) :
    runEndsFrom seq tgt i = [] := by
  unfold runEndsFrom
  rw [show seq.length - i = 0 from by omega]
  rfl

theorem runEndsFrom_skip (seq : List ℚ) (tgt : ℚ) (i : ℕ) (hi : i < seq.length)
    (hend : fymRunEnd seq tgt i = false) :
    runEndsFrom seq tgt i = runEndsFrom seq tgt (i + 1) := by
  unfold runEndsFrom
  rw [show seq.length - i = (seq.length - (i + 1)) + 1 from by omega,
    List.range'_succ, List.filter_cons, hend]
  simp

theorem runEndsFrom_cons (seq : List ℚ) (tgt : ℚ) (i : ℕ) (hi : i < seq.length)
    (hend : fymRunEnd seq tgt i = true) :
    runEndsFrom seq tgt i = i :: runEndsFrom seq tgt (i + 1) := by
  unfold runEndsFrom
  rw [show seq.length - i = (seq.length - (i + 1)) + 1 from by omega,
    List.range'_succ, List.filter_cons, hend]
  simp

/-- Crossing one complete target run: the run's last month is emitted and
scanning resumes after the run. -/
theorem runEndsFrom_block (seq : List ℚ) (tgt : ℚ) :
    ∀ d i stop, stop - 1 - i = d → i < stop →
      (∀ k, i ≤ k → k < stop → seq[k]? = some tgt) →
      seq[stop]? ≠ some tgt →
      runEndsFrom seq tgt i = (stop - 1) :: runEndsFrom seq tgt stop := by
  intro d
  induction d with
  | zero =>
    intro i stop hd hlt hrun hstop
    have hieq : i = stop - 1 := by omega
    subst hieq
    have hi : stop - 1 < seq.length := by
      have := hrun (stop - 1) le_rfl (by omega)
      by_contra hc
      rw [List.getElem?_eq_none (by omega)] at this
      exact absurd this (by simp)
    have hend : fymRunEnd seq tgt (stop - 1) = true := by
      unfold fymRunEnd
      rw [show stop - 1 + 1 = stop from by omega]
      simp [hrun (stop - 1) le_rfl (by omega), hstop]
    rw [runEndsFrom_cons seq tgt _ hi hend,
      show stop - 1 + 1 = stop from by omega]
  | succ d ih =>
    intro i stop hd hlt hrun hstop
    have hi : i < seq.length := by
      have := hrun i le_rfl hlt
      by_contra hc
      rw [List.getElem?_eq_none (by omega)] at this
      exact absurd this (by simp)
    have hend : fymRunEnd seq tgt i = false := by
      unfold fymRunEnd
      simp [hrun (i + 1) (by omega) (by omega)]
    rw [runEndsFrom_skip seq tgt i hi hend]
    exact ih (i + 1) stop (by omega) (by omega)
      (fun k hk1 hk2 => hrun k (by omega) hk2) hstop

/-- The scanning loop of `create_fym_sequence` finds exactly the maximal
target runs at or after the cursor (second components, i.e. block ends),
provided the cursor does not sit strictly inside a run. -/
theorem fymBlocks_ends (seq : List ℚ) (tgt : ℚ) :
    ∀ fuel i, seq.length - i ≤ fuel →
      (i = 0 ∨ seq[(i - 1)]? ≠ some tgt ∨ seq[i]? ≠ some tgt) →
      (fymBlocks seq tgt fuel i).map (fun b => b.2) = runEndsFrom seq tgt i := by
  intro fuel
  induction fuel with
  | zero =>
    intro i hfuel hpre
    rw [runEndsFrom_oob seq tgt i (by omega)]
    rfl
  | succ fuel ih =>
    intro i hfuel hpre
    unfold fymBlocks
    cases hv : seq[i]? with
    | none =>
      rw [runEndsFrom_oob seq tgt i (List.getElem?_eq_none_iff.mp hv)]
      rfl
    | some v =>
      have hi : i < seq.length := (List.getElem?_eq_some_iff.mp hv).choose
      by_cases hvt : v = tgt
      · subst hvt
        dsimp only
        rw [if_pos rfl]
        set stop := runStop seq v seq.length i with hstopdef
        have hstople : i ≤ stop := runStop_le seq v seq.length i
        have hstop1 : i < stop := by
          rcases Nat.eq_or_lt_of_le hstople with heq | h
          · exfalso
            apply runStop_stop seq v seq.length i (by omega)
            rw [← hstopdef, ← heq]
            exact hv
          · exact h
        have hrun : ∀ k, i ≤ k → k < stop → seq[k]? = some v :=
          fun k h1 h2 => runStop_entries seq v seq.length i k h1 h2
        have hstopne : seq[stop]? ≠ some v :=
          runStop_stop seq v seq.length i (by omega)
        have hfuel2 : seq.length - stop ≤ fuel := by omega
        have hpre2 : stop = 0 ∨ seq[(stop - 1)]? ≠ some v ∨ seq[stop]? ≠ some v :=
          Or.inr (Or.inr hstopne)
        rw [List.map_cons, ih stop hfuel2 hpre2]
        exact (runEndsFrom_block seq v (stop - 1 - i) i stop rfl hstop1 hrun hstopne).symm
      · dsimp only
        rw [if_neg hvt]
        have hend : fymRunEnd seq tgt i = false := by
          unfold fymRunEnd
          simp only [hv, Option.some.injEq, decide_eq_true_eq]
          simp [hvt]
        rw [runEndsFrom_skip seq tgt i hi hend]
        refine ih (i + 1) (by omega) (Or.inr (Or.inl ?_))
        rw [Nat.add_sub_cancel, hv]
        simp [hvt]

/-- Position of an element in a filtered range: the element is in range,
satisfies the predicate, and its 0-based position is one less than the
number of predicate-satisfying values at or below it. -/
theorem filter_range_getElem?_count (p : ℕ → Bool) :
    ∀ n m t, ((List.range n).filter p)[m]? = some t →
      t < n ∧ p t = true ∧ (List.range (t + 1)).countP p = m + 1 := by
  intro n
  induction n with
  | zero => intro m t h; simp at h
  | succ n ih =>
    intro m t h
    rw [List.range_succ, List.filter_append] at h
    rcases lt_or_ge m ((List.range n).filter p).length with hm | hm
    · rw [List.getElem?_append, if_pos hm] at h
      obtain ⟨h1, h2, h3⟩ := ih m t h
      exact ⟨by omega, h2, h3⟩
    · rw [List.getElem?_append, if_neg (not_lt.mpr hm)] at h
      cases hp : p n with
      | false => rw [List.filter_singleton, hp] at h; simp at h
      | true =>
        rw [List.filter_singleton, hp] at h
        simp only [cond_true] at h
        have hm0 : m - ((List.range n).filter p).length = 0 ∧ t = n := by
          rcases hd : m - ((List.range n).filter p).length with _ | d
          · rw [hd] at h
            simp at h
            exact ⟨rfl, h.symm⟩
          · rw [hd] at h
            simp at h
        obtain ⟨hm0, rfl⟩ := hm0
        refine ⟨by omega, hp, ?_⟩
        rw [List.range_succ, List.countP_append, List.countP_eq_length_filter]
        have hcnt1 : List.countP p [t] = 1 := by simp [List.countP_cons, hp]
        rw [hcnt1]
        omega

/-- Converse: a predicate-satisfying value of the range is found in the
filtered range at position (count at or below it) - 1. -/
theorem filter_range_mem_getElem? (p : ℕ → Bool) :
    ∀ n t, t < n → p t = true →
      ((List.range n).filter p)[((List.range (t + 1)).countP p - 1)]? = some t := by
  intro n
  induction n with
  | zero => intro t ht; omega
  | succ n ih =>
    intro t ht hp
    rw [List.range_succ, List.filter_append]
    rcases lt_or_ge t n with htn | htn
    · have hidx := ih t htn hp
      have hlt : (List.range (t + 1)).countP p - 1 < ((List.range n).filter p).length :=
        (List.getElem?_eq_some_iff.mp hidx).choose
      rw [List.getElem?_append, if_pos hlt]
      exact hidx
    · have hteq : t = n := by omega
      subst hteq
      have hcount : (List.range (t + 1)).countP p
          = ((List.range t).filter p).length + 1 := by
        rw [List.range_succ, List.countP_append, List.countP_eq_length_filter]
        have hcnt1 : List.countP p [t] = 1 := by simp [List.countP_cons, hp]
        omega
      rw [hcount, Nat.add_sub_cancel, List.getElem?_append,
        if_neg (by omega), Nat.sub_self, List.filter_singleton, hp]
      rfl

theorem foldl_set_length (amt : ℚ) :
    ∀ (E : List (ℕ × ℕ × ℕ)) (base : List ℚ),
      (E.foldl (fun acc b => acc.set b.2.2 amt) base).length = base.length := by
  intro E
  induction E with
  | nil => intro base; rfl
  | cons b E ih =>
    intro base
    rw [List.foldl_cons, ih, List.length_set]

theorem foldl_set_getD (amt : ℚ) :
    ∀ (E : List (ℕ × ℕ × ℕ)) (base : List ℚ) (t : ℕ),
      (E.foldl (fun acc b => acc.set b.2.2 amt) base).getD t 0
        = if (∃ b ∈ E, b.2.2 = t) ∧ t < base.length then amt
          else base.getD t 0 := by
  intro E
  induction E with
  | nil => intro base t; simp
  | cons b E ih =>
    intro base t
    rw [List.foldl_cons, ih, List.length_set]
    by_cases hEx : (∃ b' ∈ E, b'.2.2 = t) ∧ t < base.length
    · rw [if_pos hEx]
      obtain ⟨⟨b', hb', hb't⟩, htlen⟩ := hEx
      rw [if_pos ⟨⟨b', List.mem_cons_of_mem b hb', hb't⟩, htlen⟩]
    · rw [if_neg hEx]
      by_cases hbt : b.2.2 = t ∧ t < base.length
      · rw [if_pos ⟨⟨b, List.mem_cons_self b E, hbt.1⟩, hbt.2⟩]
        rw [List.getD_eq_getElem?_getD, ← hbt.1,
          List.getElem?_set_self (hbt.1 ▸ hbt.2)]
        rfl
      · rw [if_neg (by
          rintro ⟨⟨b', hb', hb't⟩, htlen⟩
          rcases List.mem_cons.mp hb' with rfl | hb'E
          · exact hbt ⟨hb't, htlen⟩
          · exact hEx ⟨⟨b', hb'E, hb't⟩, htlen⟩)]
        by_cases hb2 : b.2.2 = t
        · have htlen : base.length ≤ t := by
            rcases not_and_or.mp hbt with hc | hc
            · exact absurd hb2 hc
            · omega
          rw [List.getD_eq_default _ _ (by rw [List.length_set]; exact htlen),
            List.getD_eq_default _ _ htlen]
        · rw [List.getD_eq_getElem?_getD, List.getElem?_set_ne hb2,
            List.getD_eq_getElem?_getD]

/-- C5: `create_fym_sequence` returns an index-aligned, equal-length
sequence that is `amount` exactly at the last month of each even-numbered
(2nd, 4th, ...) maximal contiguous run of the target crop, counted left to
right, and 0 elsewhere; in particular `[7,7,1,7,1,7,7,7]` with target 7 and
amount 5 yields amount only at index 3. -/
theorem fym_even_blocks :
    (∀ (seq : List ℚ) (amt tgt : ℚ),
      (create_fym_sequence seq amt tgt).length = seq.length
      ∧ ∀ t, t < seq.length →
          (create_fym_sequence seq amt tgt).getD t 0
            = if fymRunEnd seq tgt t = true
                  ∧ (List.range (t + 1)).countP (fymRunEnd seq tgt) % 2 = 0
              then amt else 0)
    ∧ create_fym_sequence [7, 7, 1, 7, 1, 7, 7, 7] 5 7 = [0, 0, 0, 5, 0, 0, 0, 0] := by
  constructor
  · intro seq amt tgt
    have hends : (fymBlocks seq tgt seq.length 0).map (fun b => b.2)
        = (List.range seq.length).filter (fymRunEnd seq tgt) := by
      rw [fymBlocks_ends seq tgt seq.length 0 (by omega) (Or.inl rfl)]
      unfold runEndsFrom
      rw [Nat.sub_zero, List.range_eq_range']
    constructor
    · unfold create_fym_sequence
      rw [foldl_set_length, List.length_replicate]
    · intro t ht
      unfold create_fym_sequence
      rw [foldl_set_getD, List.length_replicate]
      have hbase : (List.replicate seq.length (0 : ℚ)).getD t 0 = 0 := by
        rw [List.getD_eq_getElem?_getD, List.getElem?_replicate, if_pos ht]
        rfl
      rw [hbase]
      have hcond : ((∃ b ∈ (fymBlocks seq tgt seq.length 0).enum.filter
            (fun b => decide ((b.1 + 1) % 2 = 0)), b.2.2 = t) ∧ t < seq.length)
          ↔ (fymRunEnd seq tgt t = true
              ∧ (List.range (t + 1)).countP (fymRunEnd seq tgt) % 2 = 0) := by
        constructor
        · rintro ⟨⟨b, hbmem, hbt⟩, htlen⟩
          rw [List.mem_filter] at hbmem
          obtain ⟨hmem, heven⟩ := hbmem
          have hget : (fymBlocks seq tgt seq.length 0)[b.1]? = some b.2 :=
            List.mem_enum_iff_getElem?.mp hmem
          have hgete : ((fymBlocks seq tgt seq.length 0).map (fun b => b.2))[b.1]?
              = some t := by
            rw [List.getElem?_map, hget]
            simp [hbt]
          rw [hends] at hgete
          obtain ⟨h1, h2, h3⟩ :=
            filter_range_getElem?_count (fymRunEnd seq tgt) seq.length b.1 t hgete
          refine ⟨h2, ?_⟩
          rw [h3]
          simpa using heven
        · rintro ⟨hend, heven⟩
          have htgt : seq[t]? = some tgt := by
            unfold fymRunEnd at hend
            rw [Bool.and_eq_true, decide_eq_true_eq] at hend
            exact hend.1
          have htlen : t < seq.length := (List.getElem?_eq_some_iff.mp htgt).choose
          have hc1 : 0 < (List.range (t + 1)).countP (fymRunEnd seq tgt) :=
            List.countP_pos.mpr ⟨t, by simp, hend⟩
          have hidx := filter_range_mem_getElem? (fymRunEnd seq tgt)
            seq.length t htlen hend
          rw [← hends, List.getElem?_map] at hidx
          cases hb : (fymBlocks seq tgt seq.length 0)[
              ((List.range (t + 1)).countP (fymRunEnd seq tgt) - 1)]? with
          | none => rw [hb] at hidx; exact absurd hidx (by simp)
          | some se =>
            rw [hb] at hidx
            simp only [Option.map_some', Option.some.injEq] at hidx
            refine ⟨⟨((List.range (t + 1)).countP (fymRunEnd seq tgt) - 1, se),
              ?_, hidx⟩, htlen⟩
            rw [List.mem_filter]
            refine ⟨List.mem_enum_iff_getElem?.mpr hb, ?_⟩
            simp only [decide_eq_true_eq]
            omega
      rw [if_congr hcond rfl rfl]
  · decide

/-- Witness for C5 at the example schedule. -/
theorem fym_even_blocks_witness :
    (create_fym_sequence [7, 7, 1, 7, 1, 7, 7, 7] 5 7).getD 3 0 = 5
    ∧ (create_fym_sequence [7, 7, 1, 7, 1, 7, 7, 7] 5 7).getD 7 0 = 0 := by
  obtain ⟨hgen, hex⟩ := fym_even_blocks
  have h3 := (hgen [7, 7, 1, 7, 1, 7, 7, 7] 5 7).2 3 (by decide)
  have h7 := (hgen [7, 7, 1, 7, 1, 7, 7, 7] 5 7).2 7 (by decide)
  exact ⟨h3.trans (by decide), h7.trans (by decide)⟩

/-! ### C1: carbon input allocation over event runs -/

theorem blockEndT_le (vs : List (Option ℚ)) (v : ℚ) :
    ∀ fuel j, j ≤ blockEndT vs v fuel j := by
  intro fuel
  induction fuel with
  | zero => intro j; exact le_rfl
  | succ fuel ih =>
    intro j
    unfold blockEndT
    split
    · exact le_trans (Nat.le_succ j) (ih (j + 1))
    · exact le_rfl

theorem blockEndT_entries (vs : List (Option ℚ)) (v : ℚ) :
    ∀ fuel j k, vs[j]? = some (some v) → j ≤ k → k ≤ blockEndT vs v fuel j →
      vs[k]? = some (some v) := by
  intro fuel
  induction fuel with
  | zero =>
    intro j k hj hjk hk
    have : k = j := by simpa [blockEndT] using Nat.le_antisymm hk hjk
    exact this ▸ hj
  | succ fuel ih =>
    intro j k hj hjk hk
    unfold blockEndT at hk
    by_cases hnext : vs[(j + 1)]? = some (some v)
    · rw [if_pos hnext] at hk
      rcases Nat.eq_or_lt_of_le hjk with rfl | hjk'
      · exact hj
      · exact ih (j + 1) k hnext hjk' hk
    · rw [if_neg hnext] at hk
      have : k = j := Nat.le_antisymm hk hjk
      exact this ▸ hj

theorem blockEndT_stop (vs : List (Option ℚ)) (v : ℚ) :
    ∀ fuel j, vs.length - j ≤ fuel →
      vs[(blockEndT vs v fuel j + 1)]? ≠ some (some v) := by
  intro fuel
  induction fuel with
  | zero =>
    intro j hfuel
    have : vs.length ≤ j + 1 := by omega
    simp [blockEndT, List.getElem?_eq_none this]
  | succ fuel ih =>
    intro j hfuel
    unfold blockEndT
    by_cases hnext : vs[(j + 1)]? = some (some v)
    · rw [if_pos hnext]
      have : j + 1 < vs.length := (List.getElem?_eq_some_iff.mp hnext).choose
      exact ih (j + 1) (by omega)
    · rw [if_neg hnext]
      exact hnext

/-- On a maximal run `[i, j]` the inner search of `transform_agb_rothc`
stops exactly at `j`. -/
theorem blockEndT_run (vs : List (Option ℚ)) (v : ℚ) :
    ∀ d i j fuel, j - i = d → i ≤ j → j + 1 - i ≤ fuel →
      (∀ k, i ≤ k → k ≤ j → vs[k]? = some (some v)) →
      vs[(j + 1)]? ≠ some (some v) →
      blockEndT vs v fuel i = j := by
  intro d
  induction d with
  | zero =>
    intro i j fuel hd hij hfuel hrun hstop
    have hieq : i = j := by omega
    subst hieq
    obtain ⟨fuel', rfl⟩ : ∃ fuel', fuel = fuel' + 1 := ⟨fuel - 1, by omega⟩
    unfold blockEndT
    rw [if_neg hstop]
  | succ d ih =>
    intro i j fuel hd hij hfuel hrun hstop
    obtain ⟨fuel', rfl⟩ : ∃ fuel', fuel = fuel' + 1 := ⟨fuel - 1, by omega⟩
    unfold blockEndT
    rw [if_pos (hrun (i + 1) (by omega) (by omega))]
    exact ih (i + 1) j fuel' (by omega) (by omega) (by omega)
      (fun k h1 h2 => hrun k (by omega) h2) hstop

theorem applyBlock_length (vs : List (Option ℚ)) (i j : ℕ) (v : ℚ) :
    (applyBlock vs i j v).length = vs.length := by
  simp [applyBlock]

theorem applyBlock_out (vs : List (Option ℚ)) (i j : ℕ) (v : ℚ) (k : ℕ)
    (hk : k < i ∨ j < k) :
    (applyBlock vs i j v)[k]? = vs[k]? := by
  unfold applyBlock
  rcases lt_or_ge k vs.length with hlen | hlen
  · rw [List.getElem?_map, List.getElem?_range hlen]
    simp only [Option.map_some']
    rw [if_pos hk, List.getD_eq_getElem?_getD, List.getElem?_eq_getElem hlen]
    rfl
  · rw [List.getElem?_eq_none (by simpa using hlen),
      List.getElem?_eq_none hlen]

theorem applyBlock_in (vs : List (Option ℚ)) (i j : ℕ) (v : ℚ) (k : ℕ)
    (h1 : i ≤ k) (h2 : k ≤ j) (hlen : k < vs.length) :
    (applyBlock vs i j v)[k]?
      = some (if k = j then some (v / 2)
              else if max i (j - 3) ≤ k then some (v / 6) else some 0) := by
  unfold applyBlock
  rw [List.getElem?_map, List.getElem?_range hlen]
  simp only [Option.map_some']
  rw [if_neg (by omega)]

theorem transformLoop_length :
    ∀ fuel (vs : List (Option ℚ)) p a,
      (transformLoop fuel vs p a).1.length = vs.length := by
  intro fuel
  induction fuel with
  | zero => intro vs p a; rfl
  | succ fuel ih =>
    intro vs p a
    unfold transformLoop
    cases hv : vs[p]? with
    | none => rfl
    | some x =>
      cases x with
      | none => exact ih vs (p + 1) a
      | some v =>
        dsimp only
        split
        · exact ih vs (p + 1) a
        · rw [ih, applyBlock_length]

theorem transformLoop_stable :
    ∀ fuel (vs : List (Option ℚ)) p a k, k < p →
      ((transformLoop fuel vs p a).1)[k]? = vs[k]? := by
  intro fuel
  induction fuel with
  | zero => intro vs p a k hk; rfl
  | succ fuel ih =>
    intro vs p a k hk
    unfold transformLoop
    cases hv : vs[p]? with
    | none => rfl
    | some x =>
      cases x with
      | none => exact ih vs (p + 1) a k (by omega)
      | some v =>
        dsimp only
        split
        · exact ih vs (p + 1) a k (by omega)
        · rw [ih _ _ _ k
            (by have := blockEndT_le vs v vs.length p; omega)]
          exact applyBlock_out vs p _ v k (Or.inl hk)

theorem transformLoop_true :
    ∀ fuel (vs : List (Option ℚ)) p, (transformLoop fuel vs p true).2 = true := by
  intro fuel
  induction fuel with
  | zero => intro vs p; rfl
  | succ fuel ih =>
    intro vs p
    unfold transformLoop
    cases hv : vs[p]? with
    | none => rfl
    | some x =>
      cases x with
      | none => exact ih vs (p + 1)
      | some v =>
        dsimp only
        split
        · exact ih vs (p + 1)
        · exact ih _ _

/-- Reaching and processing a maximal run: scanning from any cursor at or
before the run start (not strictly inside a run), the loop processes the
run `[i, j]` of value `V` and writes the V/2 - V/6 - 0 pattern there. -/
theorem transformLoop_run (i j : ℕ) (V : ℚ) (hV : V ≠ 0) (hij : i ≤ j) :
    ∀ fuel (vs : List (Option ℚ)) p a, vs.length - p ≤ fuel → p ≤ i →
      (∀ k, i ≤ k → k ≤ j → vs[k]? = some (some V)) →
      vs[(j + 1)]? ≠ some (some V) →
      (p < i → vs[(i - 1)]? ≠ some (some V)) →
      (transformLoop fuel vs p a).2 = true
      ∧ ∀ k, i ≤ k → k ≤ j →
          ((transformLoop fuel vs p a).1)[k]?
            = some (if k = j then some (V / 2)
                    else if max i (j - 3) ≤ k then some (V / 6) else some 0) := by
  intro fuel
  induction fuel with
  | zero =>
    intro vs p a hfuel hpi hrun hstop hleft
    exfalso
    have hjlen : j < vs.length := (List.getElem?_eq_some_iff.mp
      (hrun j (by omega) le_rfl)).choose
    omega
  | succ fuel ih =>
    intro vs p a hfuel hpi hrun hstop hleft
    have hjlen : j < vs.length := (List.getElem?_eq_some_iff.mp
      (hrun j (by omega) le_rfl)).choose
    have hplen : p < vs.length := by omega
    unfold transformLoop
    cases hv : vs[p]? with
    | none =>
      exact absurd (List.getElem?_eq_none_iff.mp hv) (by omega)
    | some x =>
      cases x with
      | none =>
        have hpi' : p < i := by
          rcases Nat.eq_or_lt_of_le hpi with rfl | h
          · exact absurd (hv.symm.trans (hrun p le_rfl (by omega))) (by simp)
          · exact h
        exact ih vs (p + 1) a (by omega) (by omega) hrun hstop
          (fun h => hleft hpi')
      | some v =>
        dsimp only
        by_cases hv0 : v = 0
        · rw [if_pos hv0]
          have hpi' : p < i := by
            rcases Nat.eq_or_lt_of_le hpi with rfl | h
            · exfalso
              have hvV : v = V := by
                have := hv.symm.trans (hrun p le_rfl (by omega))
                simpa using this
              exact hV (by rw [← hvV, hv0])
            · exact h
          exact ih vs (p + 1) a (by omega) (by omega) hrun hstop
            (fun h => hleft hpi')
        · rw [if_neg hv0]
          rcases Nat.eq_or_lt_of_le hpi with rfl | hpi'
          · -- at the run start: the inner search finds exactly j
            have hvV : v = V := by
              have := hv.symm.trans (hrun p le_rfl (by omega))
              simpa using this
            subst hvV
            rw [blockEndT_run vs v (j - p) p j vs.length rfl hij
              (by omega) hrun hstop]
            constructor
            · exact transformLoop_true fuel _ (j + 1)
            · intro k hk1 hk2
              rw [transformLoop_stable fuel _ (j + 1) true k (by omega)]
              exact applyBlock_in vs p j v k hk1 hk2 (by omega)
          · -- before the run: the block processed here ends before i
            set e := blockEndT vs v vs.length p with he
            have hei : e < i := by
              by_contra hc
              push_neg at hc
              have hi1 : vs[(i - 1)]? = some (some v) :=
                blockEndT_entries vs v vs.length p (i - 1) hv (by omega)
                  (by rw [← he]; omega)
              have hi2 : vs[i]? = some (some v) :=
                blockEndT_entries vs v vs.length p i hv (by omega)
                  (by rw [← he]; omega)
              have hvV : v = V := by
                have := hi2.symm.trans (hrun i le_rfl (by omega))
                simpa using this
              exact hleft hpi' (hvV ▸ hi1)
            have hout : ∀ k, i ≤ k →
                (applyBlock vs p e v)[k]? = vs[k]? :=
              fun k hk => applyBlock_out vs p e v k (Or.inr (by omega))
            have hres := ih (applyBlock vs p e v) (e + 1) true
              (by rw [applyBlock_length]; have := blockEndT_le vs v vs.length p; omega)
              (by omega)
              (fun k h1 h2 => (hout k h1).trans (hrun k h1 h2))
              (by rw [hout (j + 1) (by omega)]; exact hstop)
              (fun h => by
                rw [applyBlock_out vs p e v (i - 1) (Or.inr (by omega))]
                exact hleft hpi')
            exact hres

/-- C1: `transform_agb_rothc` on a maximal run `[i, j]` of identical
non-zero value `V` puts `V/2` at the run's last month, `V/6` at each of the
up-to-three months before it within the run, and 0 at the earlier months of
the run; hence the run totals `V` for runs of length ≥ 4, and `V/2`, `2V/3`,
`5V/6` for lengths 1, 2, 3. -/
theorem transform_run_allocation (vs : List (Option ℚ)) (i j : ℕ) (V : ℚ)
    (hV : V ≠ 0) (hij : i ≤ j)
    (hrun : ∀ k, i ≤ k → k ≤ j → vs[k]? = some (some V))
    (hleft : i = 0 ∨ vs[(i - 1)]? ≠ some (some V))
    (hstop : vs[(j + 1)]? ≠ some (some V)) :
    ∃ out, transform_agb_rothc vs = some out
      ∧ out.length = vs.length
      ∧ out.getD j 0 = V / 2
      ∧ (∀ k, max i (j - 3) ≤ k → k < j → out.getD k 0 = V / 6)
      ∧ (∀ k, i ≤ k → k < max i (j - 3) → out.getD k 0 = 0)
      ∧ (Finset.Icc i j).sum (fun k => out.getD k 0)
          = V / 2 + ((min (j - i) 3 : ℕ) : ℚ) * (V / 6)
      ∧ (3 ≤ j - i → (Finset.Icc i j).sum (fun k => out.getD k 0) = V)
      ∧ (j = i → (Finset.Icc i j).sum (fun k => out.getD k 0) = V / 2)
      ∧ (j = i + 1 → (Finset.Icc i j).sum (fun k => out.getD k 0) = 2 * V / 3)
      ∧ (j = i + 2 → (Finset.Icc i j).sum (fun k => out.getD k 0) = 5 * V / 6) := by
  have hloop := transformLoop_run i j V hV hij vs.length vs 0 false
    (by omega) (by omega) hrun hstop
    (fun h => by
      rcases hleft with h0 | hne
      · omega
      · exact hne)
  set M := max i (j - 3) with hM
  have hMi : i ≤ M := le_max_left _ _
  have hMj : M ≤ j := by omega
  refine ⟨((transformLoop vs.length vs 0 false).1).map (fun o => o.getD 0),
    ?_, ?_, ?_⟩
  · unfold transform_agb_rothc
    simp only [hloop.1, if_true]
  · rw [List.length_map, transformLoop_length]
  · have hget : ∀ k, i ≤ k → k ≤ j →
        (((transformLoop vs.length vs 0 false).1).map (fun o => o.getD 0)).getD k 0
          = (if k = j then V / 2 else if M ≤ k then V / 6 else 0) := by
      intro k h1 h2
      rw [List.getD_eq_getElem?_getD, List.getElem?_map, hloop.2 k h1 h2]
      split_ifs <;> rfl
    have hgj : (((transformLoop vs.length vs 0 false).1).map
        (fun o => o.getD 0)).getD j 0 = V / 2 := by
      rw [hget j hij le_rfl, if_pos rfl]
    have hmid : ∀ k, M ≤ k → k < j →
        (((transformLoop vs.length vs 0 false).1).map
          (fun o => o.getD 0)).getD k 0 = V / 6 := by
      intro k h1 h2
      rw [hget k (by omega) (by omega), if_neg (by omega), if_pos h1]
    have hlow : ∀ k, i ≤ k → k < M →
        (((transformLoop vs.length vs 0 false).1).map
          (fun o => o.getD 0)).getD k 0 = 0 := by
      intro k h1 h2
      rw [hget k h1 (by omega), if_neg (by omega), if_neg (by omega)]
    have hsum : (Finset.Icc i j).sum (fun k =>
        (((transformLoop vs.length vs 0 false).1).map
          (fun o => o.getD 0)).getD k 0)
        = V / 2 + ((min (j - i) 3 : ℕ) : ℚ) * (V / 6) := by
      rw [← Nat.Ico_succ_right,
        ← Finset.sum_Ico_consecutive _ hMi (show M ≤ j + 1 by omega),
        ← Finset.sum_Ico_consecutive _ hMj (show j ≤ j + 1 by omega)]
      have h1 : (Finset.Ico i M).sum (fun k =>
          (((transformLoop vs.length vs 0 false).1).map
            (fun o => o.getD 0)).getD k 0) = 0 :=
        Finset.sum_eq_zero (fun k hk => by
          rw [Finset.mem_Ico] at hk
          exact hlow k hk.1 hk.2)
      have h2 : (Finset.Ico M j).sum (fun k =>
          (((transformLoop vs.length vs 0 false).1).map
            (fun o => o.getD 0)).getD k 0) = ((j - M : ℕ) : ℚ) * (V / 6) := by
        have hcongr : (Finset.Ico M j).sum (fun k =>
            (((transformLoop vs.length vs 0 false).1).map
              (fun o => o.getD 0)).getD k 0)
            = (Finset.Ico M j).sum (fun _ => V / 6) :=
          Finset.sum_congr rfl (fun k hk => by
            rw [Finset.mem_Ico] at hk
            exact hmid k hk.1 hk.2)
        rw [hcongr, Finset.sum_const, Nat.card_Ico, nsmul_eq_mul]
      have h3 : (Finset.Ico j (j + 1)).sum (fun k =>
          (((transformLoop vs.length vs 0 false).1).map
            (fun o => o.getD 0)).getD k 0) = V / 2 := by
        rw [Nat.Ico_succ_right, Finset.Icc_self, Finset.sum_singleton, hgj]
      rw [h1, h2, h3]
      have hjM : j - M = min (j - i) 3 := by omega
      rw [hjM]
      ring
    refine ⟨hgj, hmid, hlow, hsum, ?_, ?_, ?_, ?_⟩
    · intro h4
      rw [hsum, show min (j - i) 3 = 3 from by omega]
      push_cast
      ring
    · intro h4
      rw [hsum, show min (j - i) 3 = 0 from by omega]
      push_cast
      ring
    · intro h4
      rw [hsum, show min (j - i) 3 = 1 from by omega]
      push_cast
      ring
    · intro h4
      rw [hsum, show min (j - i) 3 = 2 from by omega]
      push_cast
      ring

/-- Witness for C1 at a 5-month run of value 6 (allocation `[0,1,1,1,3]`,
total 6). -/
theorem transform_run_allocation_witness :
    ∃ out, transform_agb_rothc [some 6, some 6, some 6, some 6, some 6] = some out
      ∧ out.getD 4 0 = 3 ∧ out.getD 1 0 = 1 ∧ out.getD 0 0 = 0
      ∧ (Finset.Icc 0 4).sum (fun k => out.getD k 0) = 6 := by
  obtain ⟨out, hout, hlen, hj, hmid, hlow, hsum, hsum4, _, _, _⟩ :=
    transform_run_allocation [some 6, some 6, some 6, some 6, some 6] 0 4 6
      (by norm_num) (by omega)
      (by intro k h1 h2; interval_cases k <;> rfl)
      (Or.inl rfl)
      (by simp)
  refine ⟨out, hout, hj.trans (by norm_num), ?_, ?_, ?_⟩
  · exact (hmid 1 (by omega) (by omega)).trans (by norm_num)
  · exact hlow 0 (by omega) (by omega)
  · exact (hsum4 (by omega)).trans rfl

/-! ### C2: calendar / sequence round trip -/

theorem groupLoop_nil (seq : List ℚ) :
    ∀ fuel i, seq.length ≤ i → groupLoop seq fuel i = [] := by
  intro fuel i h
  cases fuel with
  | zero => rfl
  | succ fuel =>
    unfold groupLoop
    rw [List.getElem?_eq_none h]

/-- Full characterization of the grouping loop of `create_crop_calendar`:
from a cursor inside the sequence it produces a non-empty list of
consecutive index blocks starting at the cursor and ending at the final
index, each block holding a constant value. -/
theorem groupLoop_spec (seq : List ℚ) :
    ∀ fuel i, seq.length - i ≤ fuel → i < seq.length →
      ∃ b0 B', groupLoop seq fuel i = b0 :: B'
      ∧ b0.1 = i
      ∧ (∃ blast, (b0 :: B').getLast? = some blast ∧ blast.2 = seq.length - 1)
      ∧ (∀ b ∈ b0 :: B', i ≤ b.1 ∧ b.1 ≤ b.2 ∧ b.2 < seq.length)
      ∧ (∀ b ∈ b0 :: B', ∀ k, b.1 ≤ k → k ≤ b.2 → seq[k]? = seq[b.1]?)
      ∧ (∀ t, i ≤ t → t < seq.length → ∃ b ∈ b0 :: B', b.1 ≤ t ∧ t ≤ b.2)
      ∧ List.Chain' (fun a b => b.1 = a.2 + 1) (b0 :: B') := by
  intro fuel
  induction fuel with
  | zero => intro i hfuel hi; omega
  | succ fuel ih =>
    intro i hfuel hi
    have hv : seq[i]? = some seq[i] := List.getElem?_eq_getElem hi
    unfold groupLoop
    rw [hv]
    dsimp only
    set v := seq[i] with hvdef
    set stop := runStop seq v seq.length i with hstopdef
    have hstople : i ≤ stop := runStop_le seq v seq.length i
    have hstopgt : i < stop := by
      rcases Nat.eq_or_lt_of_le hstople with heq | h
      · exfalso
        apply runStop_stop seq v seq.length i (by omega)
        rw [← hstopdef, ← heq]
        exact hv
      · exact h
    have hentries : ∀ k, i ≤ k → k < stop → seq[k]? = some v :=
      fun k h1 h2 => runStop_entries seq v seq.length i k h1 h2
    have hstopub : stop ≤ seq.length := by
      have hlast : seq[(stop - 1)]? = some v := hentries (stop - 1) (by omega) (by omega)
      have := (List.getElem?_eq_some_iff.mp hlast).choose
      omega
    have hstopne : seq[stop]? ≠ some v :=
      runStop_stop seq v seq.length i (by omega)
    have hconst : ∀ k, i ≤ k → k ≤ stop - 1 → seq[k]? = seq[i]? := by
      intro k h1 h2
      rw [hentries k h1 (by omega), hv]
    rcases Nat.eq_or_lt_of_le hstopub with hstopeq | hstoplt
    · -- the run reaches the end of the sequence: a single final block
      rw [groupLoop_nil seq fuel stop (by omega)]
      refine ⟨(i, stop - 1), [], rfl, rfl, ⟨(i, stop - 1), rfl, by omega⟩,
        ?_, ?_, ?_, ?_⟩
      · intro b hb
        rw [List.mem_singleton] at hb
        subst hb
        exact ⟨le_rfl, by omega, by omega⟩
      · intro b hb
        rw [List.mem_singleton] at hb
        subst hb
        exact hconst
      · intro t h1 h2
        exact ⟨(i, stop - 1), List.mem_singleton.mpr rfl, h1, by omega⟩
      · exact List.chain'_singleton _
    · -- more blocks follow
      obtain ⟨b0', B'', heq, hb0'1, hlast, hbounds, hconst', hcover, hchain⟩ :=
        ih stop (by omega) hstoplt
      rw [heq]
      refine ⟨(i, stop - 1), b0' :: B'', rfl, rfl, ?_, ?_, ?_, ?_, ?_⟩
      · obtain ⟨blast, hbl, hbl2⟩ := hlast
        exact ⟨blast, by rw [List.getLast?_cons_cons]; exact hbl, hbl2⟩
      · intro b hb
        rcases List.mem_cons.mp hb with rfl | hb'
        · exact ⟨le_rfl, by omega, by omega⟩
        · have := hbounds b hb'
          exact ⟨by omega, this.2.1, this.2.2⟩
      · intro b hb
        rcases List.mem_cons.mp hb with rfl | hb'
        · exact hconst
        · exact hconst' b hb'
      · intro t h1 h2
        rcases lt_or_ge t stop with htlt | htge
        · exact ⟨(i, stop - 1), List.mem_cons_self _ _, h1, by omega⟩
        · obtain ⟨b, hbmem, hb1, hb2⟩ := hcover t htge h2
          exact ⟨b, List.mem_cons_of_mem _ hbmem, hb1, hb2⟩
      · rw [List.chain'_cons]
        exact ⟨by dsimp only; omega, hchain⟩

/-- A covering block is found by `find?` (first match) whenever one exists. -/
theorem blocks_find (t : ℕ) :
    ∀ (B : List (ℕ × ℕ)), (∃ b ∈ B, b.1 ≤ t ∧ t ≤ b.2) →
      ∃ b, B.find? (fun b => decide (b.1 ≤ t) && decide (t ≤ b.2)) = some b
        ∧ b ∈ B ∧ b.1 ≤ t ∧ t ≤ b.2 := by
  intro B
  induction B with
  | nil => rintro ⟨b, hb, _⟩; simp at hb
  | cons a B ih =>
    rintro ⟨b, hb, hb1, hb2⟩
    by_cases ha : a.1 ≤ t ∧ t ≤ a.2
    · refine ⟨a, ?_, List.mem_cons_self a B, ha.1, ha.2⟩
      rw [List.find?_cons_of_pos _ (by simp [ha.1, ha.2])]
    · have hbB : b ∈ B := by
        rcases List.mem_cons.mp hb with rfl | h
        · exact absurd ⟨hb1, hb2⟩ ha
        · exact h
      obtain ⟨b', hfind, hmem, h1, h2⟩ := ih ⟨b, hbB, hb1, hb2⟩
      refine ⟨b', ?_, List.mem_cons_of_mem a hmem, h1, h2⟩
      rw [List.find?_cons_of_neg _ (by
        simp only [Bool.and_eq_true, decide_eq_true_eq]
        exact fun hc => ha hc)]
      exact hfind

theorem ymLeb_ymAdd (d : YM) (hd1 : 1 ≤ d.month) (hd2 : d.month ≤ 12) (x y : ℕ) :
    ymLeb (ymAdd d x) (ymAdd d y) = decide (x ≤ y) := by
  have h1 := ymAdd_month_bounds d x
  have h2 := ymAdd_month_bounds d y
  by_cases h : x ≤ y
  · have hle : ymLeb (ymAdd d x) (ymAdd d y) = true :=
      (ymLeb_iff _ _ h1.1 h1.2 h2.1 h2.2).mpr
        (by rw [monthIndex_ymAdd _ _ hd1, monthIndex_ymAdd _ _ hd1]; omega)
    rw [hle, decide_eq_true h]
  · have hle : ymLeb (ymAdd d x) (ymAdd d y) = false := by
      rw [← Bool.not_eq_true]
      intro hc
      have := (ymLeb_iff _ _ h1.1 h1.2 h2.1 h2.2).mp hc
      rw [monthIndex_ymAdd _ _ hd1, monthIndex_ymAdd _ _ hd1] at this
      omega
    rw [hle]
    exact (decide_eq_false h).symm

theorem pyInt_intCast (z : ℤ) : pyInt (z : ℚ) = z := by
  unfold pyInt
  rw [Rat.num_intCast, Rat.den_intCast]
  simp [Int.tdiv_one]

/-- Every value of a crop sequence is either some period's crop code or the
bare-soil fallback 1. -/
theorem crop_seq_values (cal : List Period) (x : ℚ)
    (hx : x ∈ crop_calendar_to_sequence cal) :
    (∃ p ∈ cal, x = p.crop) ∨ x = 1 := by
  unfold crop_calendar_to_sequence at hx
  rcases hh : cal.head? with _ | first
  · rw [hh] at hx; simp at hx
  · rcases hl : cal.getLast? with _ | last
    · rw [hh, hl] at hx; simp at hx
    · rw [hh, hl] at hx
      dsimp only at hx
      rw [List.mem_map] at hx
      obtain ⟨m, hm, hval⟩ := hx
      rcases hf : cal.find? (fun p => periodCoversb p m) with _ | p
      · rw [hf] at hval
        exact Or.inr hval.symm
      · rw [hf] at hval
        exact Or.inl ⟨p, List.mem_of_find?_eq_some hf, hval.symm⟩

/-- Round trip at sequence level: regenerating the monthly sequence from the
calendar built out of it gives back the sequence, for any non-empty sequence
of integer codes and a valid anchor month. -/
theorem seq_roundtrip (seq : List ℚ) (names : List (String × ℤ)) (d : YM)
    (hne : seq ≠ []) (hd1 : 1 ≤ d.month) (hd2 : d.month ≤ 12)
    (hint : ∀ x ∈ seq, ∃ z : ℤ, x = (z : ℚ)) :
    crop_calendar_to_sequence (create_crop_calendar seq names d) = seq := by
  have hn1 : 0 < seq.length := List.length_pos.mpr hne
  obtain ⟨b0, B', heqB, hb01, ⟨blast, hblast, hblast2⟩, hbounds, hconst, hcover, hchain⟩ :=
    groupLoop_spec seq seq.length 0 (by omega) (by omega)
  have hcal2eq : create_crop_calendar seq names d
      = (b0 :: B').map (mkCalendarRow seq names d) := by
    unfold create_crop_calendar
    rw [heqB]
  have hhead : (create_crop_calendar seq names d).head?
      = some (mkCalendarRow seq names d b0) := by
    rw [hcal2eq]
    rfl
  have hlastp : (create_crop_calendar seq names d).getLast?
      = some (mkCalendarRow seq names d blast) := by
    rw [hcal2eq, List.getLast?_map, hblast]
    rfl
  have hstart : (mkCalendarRow seq names d b0).startD = d := by
    unfold mkCalendarRow
    dsimp only
    rw [hb01, ymAdd_zero d hd1 hd2]
  have hend : (mkCalendarRow seq names d blast).endD = ymAdd d (seq.length - 1) := by
    unfold mkCalendarRow
    dsimp only
    rw [hblast2]
  unfold crop_calendar_to_sequence
  rw [hhead, hlastp]
  dsimp only
  rw [hstart, hend]
  have hlen : (spanMonths d (ymAdd d (seq.length - 1))).length = seq.length := by
    rw [spanMonths_length, monthIndex_ymAdd _ _ hd1]
    push_cast
    omega
  apply List.ext_getElem
  · rw [List.length_map, hlen]
  · intro t h1 h2
    have hmt : (spanMonths d (ymAdd d (seq.length - 1)))[t]? = some (ymAdd d t) :=
      spanMonths_getElem? d _ hd1 hd2 t (by rw [hlen]; exact h2)
    have hmapt : ((spanMonths d (ymAdd d (seq.length - 1))).map (fun m =>
        match (create_crop_calendar seq names d).find?
            (fun p => periodCoversb p m) with
        | some p => p.crop
        | none => 1))[t]?
        = some (match (create_crop_calendar seq names d).find?
            (fun p => periodCoversb p (ymAdd d t)) with
          | some p => p.crop
          | none => 1) := by
      rw [List.getElem?_map, hmt]
      rfl
    have hself := List.getElem?_eq_getElem h1
    rw [hself] at hmapt
    have hval := Option.some.inj hmapt
    rw [hval]
    obtain ⟨b, hfind, hmem, hb1, hb2⟩ := blocks_find t (b0 :: B')
      (hcover t (by omega) h2)
    have hpred : ((fun p => periodCoversb p (ymAdd d t)) ∘ (mkCalendarRow seq names d))
        = (fun b : ℕ × ℕ => decide (b.1 ≤ t) && decide (t ≤ b.2)) := by
      funext c
      show periodCoversb (mkCalendarRow seq names d c) (ymAdd d t) = _
      unfold periodCoversb mkCalendarRow
      dsimp only
      rw [ymLeb_ymAdd d hd1 hd2 c.1 t, ymLeb_ymAdd d hd1 hd2 t c.2]
    rw [hcal2eq, List.find?_map, hpred, hfind]
    simp only [Option.map_some']
    show (mkCalendarRow seq names d b).crop = seq[t]
    unfold mkCalendarRow
    dsimp only
    have hseqb : seq[b.1]? = seq[t]? := (hconst b hmem t hb1 hb2).symm
    have hgd : seq.getD b.1 0 = seq[t] := by
      rw [List.getD_eq_getElem?_getD, hseqb, List.getElem?_eq_getElem h2]
      rfl
    obtain ⟨z, hz⟩ := hint seq[t] (List.getElem_mem h2)
    rw [hgd, hz, pyInt_intCast]

/-- For a contiguous, well-formed calendar, the first start is no later than
the last end. -/
theorem chain_start_le_end (cal : List Period)
    (hwf : ∀ p ∈ cal, monthIndex p.startD ≤ monthIndex p.endD)
    (hcontig : List.Chain' (fun p q => monthIndex q.startD = monthIndex p.endD + 1) cal) :
    ∀ (h : cal ≠ []), monthIndex (cal.head h).startD ≤ monthIndex (cal.getLast h).endD := by
  induction cal with
  | nil => intro h; exact absurd rfl h
  | cons p rest ih =>
    intro h
    cases rest with
    | nil => simpa using hwf p (by simp)
    | cons q rest' =>
      have hpq : monthIndex q.startD = monthIndex p.endD + 1 :=
        (List.chain'_cons.mp hcontig).1
      have hih := ih (fun r hr => hwf r (List.mem_cons_of_mem p hr))
        (List.chain'_cons.mp hcontig).2 (by simp)
      have hlast : (p :: q :: rest').getLast h
          = (q :: rest').getLast (by simp) := List.getLast_cons (by simp)
      have hp1 : monthIndex p.startD ≤ monthIndex p.endD := hwf p (by simp)
      rw [show (p :: q :: rest').head h = p from rfl, hlast]
      have hhq : (q :: rest').head (by simp) = q := rfl
      rw [hhq] at hih
      omega

/-- C2: for every non-empty calendar with valid "YYYY-MM" dates, integer
crop codes, well-formed and contiguous (hence non-overlapping) periods,
sequencing, re-compressing with `create_crop_calendar` anchored at the
calendar's start month, and sequencing again reproduces exactly the
original monthly crop-code sequence. -/
theorem calendar_roundtrip (cal : List Period) (names : List (String × ℤ))
    (h : cal ≠ [])
    (hmonths : ∀ p ∈ cal, 1 ≤ p.startD.month ∧ p.startD.month ≤ 12
        ∧ 1 ≤ p.endD.month ∧ p.endD.month ≤ 12)
    (hcrops : ∀ p ∈ cal, ∃ z : ℤ, p.crop = (z : ℚ))
    (hwf : ∀ p ∈ cal, monthIndex p.startD ≤ monthIndex p.endD)
    (hcontig : List.Chain' (fun p q =>
        monthIndex q.startD = monthIndex p.endD + 1) cal) :
    crop_calendar_to_sequence (create_crop_calendar
        (crop_calendar_to_sequence cal) names (cal.head h).startD)
      = crop_calendar_to_sequence cal := by
  apply seq_roundtrip
  · have hlen : (crop_calendar_to_sequence cal).length
        = ((monthIndex (cal.getLast h).endD : ℤ)
            - monthIndex (cal.head h).startD + 1).toNat := by
      rw [crop_seq_eq cal h]
      simp [spanMonths_length]
    have hse := chain_start_le_end cal hwf hcontig h
    have hpos : 0 < (crop_calendar_to_sequence cal).length := by
      rw [hlen]
      omega
    exact List.ne_nil_of_length_pos hpos
  · exact (hmonths (cal.head h) (List.head_mem h)).1
  · exact (hmonths (cal.head h) (List.head_mem h)).2.1
  · intro x hx
    rcases crop_seq_values cal x hx with ⟨p, hp, rfl⟩ | rfl
    · exact hcrops p hp
    · exact ⟨1, by norm_num⟩

/-- Two-period contiguous example calendar for the C2 witness. -/
def exRTCal : List Period :=
  [{ crop := 7, startD := ⟨2004, 11⟩, endD := ⟨2005, 2⟩ },
   { crop := 2, startD := ⟨2005, 3⟩, endD := ⟨2005, 4⟩ }]

/-- Witness for C2 at a concrete two-period calendar. -/
theorem calendar_roundtrip_witness :
    crop_calendar_to_sequence (create_crop_calendar
        (crop_calendar_to_sequence exRTCal) [] (exRTCal.head (by decide)).startD)
      = crop_calendar_to_sequence exRTCal := by
  apply calendar_roundtrip exRTCal [] (by decide) (by decide) ?_ (by decide)
    (by
      unfold exRTCal
      exact List.chain'_cons.mpr ⟨by decide, List.chain'_singleton _⟩)
  intro p hp
  rcases List.mem_cons.mp hp with rfl | hp'
  · exact ⟨7, by norm_num⟩
  · rcases List.mem_cons.mp hp' with rfl | hp''
    · exact ⟨2, by norm_num⟩
    · exact absurd hp'' (by simp)

end NBS
